import Mathlib

/-!
Verification of the globsim ERA-Interim interpolation and scaling pipeline
(`era_interim.py`) against its natural-language specification.

Each definition below is a shallow embedding of a specific piece of the
source; line numbers refer to `era_interim.py`.  Machine floats are embedded
as exact rationals (`ℚ`); numpy arrays as lists.
-/

namespace Globsim

/-! ## Temporal chunking in `ERAIinterpolate.ERA2station` (lines 1026–1079)

The restricted time range has `T = len(time_in)` steps and the configured
chunk size is `cs`.  The loop body is indexed by `n < niter`.
-/

/-- Number of chunk iterations, `niter = T // cs + ((T % cs) > 0)` (lines 1027–1028). -/
def niter (T cs : ℕ) : ℕ := T / cs + (if T % cs > 0 then 1 else 0)

/-- First index of chunk `n`: `beg = n * cs` (line 1033). -/
def chunkBeg (cs n : ℕ) : ℕ := n * cs

/-- Last index of chunk `n`: `end = min(n*cs + cs, len(time_in)) - 1` (line 1035). -/
def chunkEnd (T cs n : ℕ) : ℕ := min (n * cs + cs) T - 1

/-- The indices of the restricted time range appended by chunk `n`: the slice
`[beg : end+1]` used both for the time vector (line 1059) and for every
variable slice (lines 1069–1079). -/
def chunkIdx (T cs n : ℕ) : List ℕ :=
  (List.range (chunkEnd T cs n + 1 - chunkBeg cs n)).map (fun i => chunkBeg cs n + i)

/-- The full output series produced by the chunk loop: concatenation, in
increasing chunk order (line 1031), of the per-chunk appends.  `f` gives the
value written for a restricted time index (a time value or one variable's
regridded slice at that time step, which `ERAinterp2D` computes per time step
independently). -/
def chunkedSeries {α : Type} (T cs : ℕ) (f : ℕ → α) : List α :=
  (List.range (niter T cs)).flatMap (fun n => (chunkIdx T cs n).map f)

/-- Processing the whole restricted range as one chunk appends exactly the
values at indices `0, …, T-1` in order. -/
def singleChunkSeries {α : Type} (T : ℕ) (f : ℕ → α) : List α :=
  (List.range T).map f

/-! ## Vertical interpolation in `ERAIinterpolate.levels2elevation` (lines 1164–1200)

The loop body for one station of elevation `h` and one time step: `ele` is the
row of geopotential heights (metres, already divided by 9.80665, line 1167) at
the `nl` pressure levels, ordered by increasing pressure, i.e. decreasing
height.  The vectorized index arithmetic (`ravel` plus `va += t * nl`,
lines 1174–1188) addresses each time step's row independently; the embedding
below is that per-row computation.
-/

/-- `np.argmin` over one row: index of the first occurrence of the minimum.
`bv` is the best value seen so far, found at index `best`; `i` is the index of
the head of `xs` in the full row. -/
def argminAux : List ℚ → ℚ → ℕ → ℕ → ℕ
  | [], _, _, best => best
  | x :: xs, bv, i, best =>
      if x < bv then argminAux xs x (i + 1) i else argminAux xs bv (i + 1) best

/-- `np.argmin` (line 1174, applied along `axis=1`, i.e. to one row). -/
def argmin : List ℚ → ℕ
  | [] => 0
  | x :: xs => argminAux xs x 1 0

/-- `np.absolute` (lines 1184–1185). -/
def npabs (x : ℚ) : ℚ := if x < 0 then -x else x

/-- `dele = ele - h` (line 1171): height of each level minus the station
elevation; nonnegative exactly for the levels at or above the station. -/
def dele (ele : List ℚ) (h : ℚ) : List ℚ := ele.map (fun e => e - h)

/-- `dele + (dele < 0) * 100000` (line 1174): levels below the station are
penalized by `100000` so that `argmin` prefers the nearest level above. -/
def penalized (ele : List ℚ) (h : ℚ) : List ℚ :=
  (dele ele h).map (fun x => x + (if x < 0 then (100000 : ℚ) else 0))

/-- `va = np.argmin(dele + (dele < 0) * 100000)` (line 1174): index of the
level used as the level directly above the station. -/
def va (ele : List ℚ) (h : ℚ) : ℕ := argmin (penalized ele h)

/-- `mask = va < (nl-1)` (line 1176): `false` in the clamp situation. -/
def maskBelow (ele : List ℚ) (h : ℚ) : Bool := decide (va ele h < ele.length - 1)

/-- `vb = va + mask` (line 1181): index of the level used as directly below. -/
def vb (ele : List ℚ) (h : ℚ) : ℕ := va ele h + (if maskBelow ele h then 1 else 0)

/-- `wa = np.absolute(dele.ravel()[vb])` (line 1184). -/
def waRaw (ele : List ℚ) (h : ℚ) : ℚ := npabs ((dele ele h).getD (vb ele h) 0)

/-- `wb = np.absolute(dele.ravel()[va])` (line 1185). -/
def wbRaw (ele : List ℚ) (h : ℚ) : ℚ := npabs ((dele ele h).getD (va ele h) 0)

/-- `wt = wa + wb` (line 1186): the divisor of the weight normalization. -/
def wt (ele : List ℚ) (h : ℚ) : ℚ := waRaw ele h + wbRaw ele h

/-- `wa /= wt` (line 1187). -/
def waNorm (ele : List ℚ) (h : ℚ) : ℚ := waRaw ele h / wt ele h

/-- `wb /= wt` (line 1188). -/
def wbNorm (ele : List ℚ) (h : ℚ) : ℚ := wbRaw ele h / wt ele h

/-- `ipol = data[va]*wa + data[vb]*wb` (line 1199): the interpolated value of
one variable at one time step, `data` being the variable's row of per-level
values. -/
def ipol (ele : List ℚ) (h : ℚ) (data : List ℚ) : ℚ :=
  data.getD (va ele h) 0 * waNorm ele h + data.getD (vb ele h) 0 * wbNorm ele h

/-- The spec's own weighting formula (§4.4): value at the bracketing level
above weighted by `|Δh_below| / (|Δh_above| + |Δh_below|)` and symmetrically.
Stated from the spec's words, for comparison with `ipol`. -/
def specInterp (hAbove hBelow vAbove vBelow h : ℚ) : ℚ :=
  vAbove * (npabs (hBelow - h) / (npabs (hAbove - h) + npabs (hBelow - h))) +
  vBelow * (npabs (hAbove - h) / (npabs (hAbove - h) + npabs (hBelow - h)))

/-! ## Variable selection in `ERAIinterpolate.ERAinterp2D` (lines 887–892)
and the call from `ERA2station` (lines 1052–1055) -/

/-- Python `set(variables) < set(varlist)`: proper-subset test on the
underlying sets (the left comparison of line 891). -/
def strictSubset (vs vl : List String) : Bool :=
  vs.all (fun v => vl.contains v) && !(vl.all (fun v => vs.contains v))

/-- Python `set(varlist) == 0` (the right comparison of the chained expression
in line 891): a `set` object never equals the integer `0`. -/
def setEqIntZero (_vl : List String) : Bool := false

/-- Line 891, `if (set(variables) < set(varlist) == 0):` — a Python chained
comparison, equivalent to
`(set(variables) < set(varlist)) and (set(varlist) == 0)`.
The `ValueError('One or more variables not in netCDF file.')` of line 892 is
raised iff this condition is true. -/
def varCheckCondition (vs vl : List String) : Bool :=
  strictSubset vs vl && setEqIntZero vl

/-- Lines 888–889: with `variables=None` all file variables are used, otherwise
the requested list itself; `ERA2station` always passes `variables=None`
(line 1055), so the caller's requested list never reaches the check. -/
def effectiveVariables (vars : Option (List String)) (varlist : List String) :
    List String :=
  match vars with
  | none => varlist
  | some vs => vs

/-! ## Relative humidity kernel `ERAIscale.RH_per_sur` (lines 1496–1518) -/

/-- `numpy` `.clip(min=lo, max=hi)` (line 1518). -/
def npclip (x lo hi : ℚ) : ℚ := min (max x lo) hi

/-- `RH = 100 - 5 * (AIRT_ERAI_C_sur - dewp)` (line 1517). -/
def RH_raw (airt dewp : ℚ) : ℚ := 100 - 5 * (airt - dewp)

/-- The series written by the kernel (lines 1517–1518): the raw relative
humidity clipped to `[0.1, 99.9]`, elementwise over the resampled
air-temperature and dew-point series. -/
def RH_per_sur (airt dewp : List ℚ) : List ℚ :=
  List.zipWith (fun t d => npclip (RH_raw t d) (1 / 10) (999 / 10)) airt dewp

/-! ## Output time axis in `ERAIscale.__init__` (lines 1337–1349) -/

/-- `time_step = par.time_step * 3600` [s] (line 1337). -/
def stepSeconds (stepH : ℚ) : ℚ := stepH * 3600

/-- `nt = int(floor((max(time) - min(time)).total_seconds() / 3600 / par.time_step)) + 1`
(lines 1342–1343): number of output steps, last multiple included. -/
def nt_out (tmin tmax stepH : ℚ) : ℤ := ⌊(tmax - tmin) / 3600 / stepH⌋ + 1

/-- `times_out = [mt + timedelta(seconds=x*time_step) for x in range(0, nt)]`
(lines 1347–1349), expressed in seconds from the epoch. -/
def times_out (tmin stepH : ℚ) (n : ℕ) : List ℚ :=
  (List.range n).map (fun x : ℕ => tmin + (x : ℚ) * stepSeconds stepH)

/-! ## De-accumulation in `ERAIscale.PREC_mm_sur` (lines 1479–1494)

The kernel converts the cumulative input series to per-interval totals with
`cummulative2total`, divides by the native interval length to get a rate,
linearly interpolates the rate onto the output times with
`scipy.interpolate.interp1d(..., kind='linear')`, and multiplies by the output
step length (`f(self.times_out_nc) * self.time_step`, line 1494).
-/

/-- Modelled from the spec: `cummulative2total` is imported from
`globsim.generic`, which is not among this repository's source files.  Per the
spec (§4.5 and glossary "De-accumulation": "recovering a per-interval rate from
a variable that resets and accumulates over a fixed native reporting
interval"), it converts a cumulative series that resets every `r` native steps
into per-interval totals: at a reset boundary the total is the value itself,
elsewhere the difference from the previous value. -/
def cummulative2total (vals : List ℚ) (r : ℕ) : List ℚ :=
  (List.range vals.length).map (fun j =>
    if j % r = 0 then vals.getD j 0 else vals.getD j 0 - vals.getD (j - 1) 0)

/-- `scipy.interpolate.interp1d(ts, vs, kind='linear')` over sorted knots,
evaluated within the knot range: linear interpolation on the bracketing
segment. -/
def interp1 : List (ℚ × ℚ) → ℚ → ℚ
  | [], _ => 0
  | [(_, v)], _ => v
  | (t1, v1) :: (t2, v2) :: rest, x =>
      if x ≤ t2 then v1 + (x - t1) * (v2 - v1) / (t2 - t1)
      else interp1 ((t2, v2) :: rest) x

/-- The per-station body of `PREC_mm_sur` (lines 1490–1494): de-accumulate,
divide by the native interval length `intervalIn` (line 1488) to get a rate,
linearly interpolate the rate onto the output times, multiply by the output
step length `stepOut`. -/
def fluxKernel (tIn vals : List ℚ) (r : ℕ) (intervalIn : ℚ)
    (tOut : List ℚ) (stepOut : ℚ) : List ℚ :=
  tOut.map (fun u =>
    interp1 (tIn.zip ((cummulative2total vals r).map (fun v => v / intervalIn))) u
      * stepOut)

/-! ## Kernel dispatch in `ERAIscale.process` (lines 1374–1378) -/

/-- The output variables written by each implemented `ERAIscale` kernel method
(lines 1408–1670), `none` for a name with no method (`hasattr` false).
`AIRT_redcapp` (lines 1461–1466) is implemented but only prints the placeholder
message `"AIRT_ERAI_redcapp"` and writes no output variable. -/
def kernelOutputs : String → Option (List String)
  | "PRESS_Pa_pl" => some ["PRESS_ERAI_Pa_pl"]
  | "AIRT_C_pl" => some ["AIRT_ERAI_C_pl"]
  | "AIRT_C_sur" => some ["AIRT_ERAI_C_sur"]
  | "AIRT_redcapp" => some []
  | "PREC_mm_sur" => some ["PREC_ERAI_mm_sur"]
  | "RH_per_sur" => some ["RH_ERAI_per_sur"]
  | "WIND_sur" => some ["WSPD_ERAI_ms_sur", "WDIR_ERAI_deg_sur"]
  | "SW_Wm2_sur" => some ["SW_ERAI_Wm2_sur"]
  | "LW_Wm2_sur" => some ["LW_ERAI_Wm2_sur"]
  | "SH_kgkg_sur" => some ["SH_ERAI_kgkg_sur"]
  | "LW_Wm2_topo" => some ["LW_ERAI_Wm2_topo"]
  | _ => none

/-- Observable outcome of one scaling run's kernel loop. -/
structure ProcessResult where
  outputsWritten : List String
  flaggedNoOps : List String
  errored : Bool

/-- The kernel loop of `ERAIscale.process` (lines 1374–1378): each configured
name is run iff the method exists (`hasattr`), appending that kernel's output
variables; an unknown name is skipped without any message; the loop has no
failure path and no flagging mechanism, so the run always completes as a
success (`errored = false`, `flaggedNoOps = []`). -/
def processKernels (kernels : List String) : ProcessResult :=
  { outputsWritten := kernels.flatMap (fun k => (kernelOutputs k).getD []),
    flaggedNoOps := [],
    errored := false }

/-! ## Theorems -/

lemma niter_pos (T cs : ℕ) (hT : 0 < T) (hcs : 1 ≤ cs) : 0 < niter T cs := by
  unfold niter
  rcases Nat.eq_zero_or_pos (T % cs) with h | h
  · have hdvd : cs ∣ T := Nat.dvd_of_mod_eq_zero h
    have : 0 < T / cs := Nat.div_pos (Nat.le_of_dvd hT hdvd) (by omega)
    omega
  · simp [h]

lemma mul_lt_of_lt_niter (T cs k : ℕ) (hcs : 1 ≤ cs) (hk : k < niter T cs) :
    k * cs < T := by
  by_contra hge
  push_neg at hge
  have h1 : T / cs ≤ k := by
    calc T / cs ≤ (k * cs) / cs := Nat.div_le_div_right hge
    _ = k := Nat.mul_div_cancel k (by omega)
  have h2 : T = cs * (T / cs) + T % cs := (Nat.div_add_mod T cs).symm
  unfold niter at hk
  rcases Nat.eq_zero_or_pos (T % cs) with h | h
  · rw [h] at hk
    simp at hk
    omega
  · rw [if_pos h] at hk
    -- niter = T/cs + 1, k < T/cs + 1, so k = T/cs and T ≤ k*cs
    have hkq : k = T / cs := by omega
    have : T ≤ cs * k := by rw [Nat.mul_comm] at hge; omega
    rw [hkq] at this
    omega

lemma le_niter_mul (T cs : ℕ) (hcs : 1 ≤ cs) : T ≤ niter T cs * cs := by
  have h2 : T = cs * (T / cs) + T % cs := (Nat.div_add_mod T cs).symm
  have hmod : T % cs < cs := Nat.mod_lt T (by omega)
  unfold niter
  rcases Nat.eq_zero_or_pos (T % cs) with h | h
  · rw [h]
    simp
    have h3 : T / cs * cs = cs * (T / cs) := Nat.mul_comm _ _
    omega
  · rw [if_pos h]
    have h3 : (T / cs + 1) * cs = cs * (T / cs) + cs := by ring
    omega

/-- For a chunk that actually runs, the appended slice is
`[n*cs, …, min(n*cs+cs, T) - 1]`. -/
lemma chunkIdx_eq (T cs n : ℕ) (hcs : 1 ≤ cs) (hn : n < niter T cs) :
    chunkIdx T cs n =
      (List.range (min (n * cs + cs) T - n * cs)).map (fun i => n * cs + i) := by
  have hlt : n * cs < T := mul_lt_of_lt_niter T cs n hcs hn
  have hmin : 0 < min (n * cs + cs) T := by omega
  unfold chunkIdx chunkEnd chunkBeg
  congr 2
  omega

lemma chunkIdx_length (T cs n : ℕ) (hcs : 1 ≤ cs) (hn : n < niter T cs) :
    (chunkIdx T cs n).length = min (n * cs + cs) T - n * cs := by
  rw [chunkIdx_eq T cs n hcs hn]
  simp

/-- The concatenation of the first `k` chunks' index slices is exactly the
initial segment of indices `[0, …, min(k*cs, T) - 1]`. -/
lemma range_bind_chunkIdx (T cs : ℕ) (hcs : 1 ≤ cs) :
    ∀ k, k ≤ niter T cs →
      (List.range k).flatMap (chunkIdx T cs) = List.range (min (k * cs) T) := by
  intro k
  induction k with
  | zero => simp
  | succ k ih =>
    intro hk
    have hk' : k ≤ niter T cs := by omega
    have hklt : k < niter T cs := by omega
    have hlt : k * cs < T := mul_lt_of_lt_niter T cs k hcs hklt
    rw [List.range_succ, List.flatMap_append, ih hk']
    simp only [List.flatMap_cons, List.flatMap_nil, List.append_nil]
    rw [chunkIdx_eq T cs k hcs hklt]
    have hmin1 : min (k * cs) T = k * cs := by omega
    rw [hmin1]
    rcases Nat.le_total (k * cs + cs) T with h | h
    · have hmin3 : min (k * cs + cs) T = k * cs + cs := by omega
      rw [hmin3]
      have hsub : k * cs + cs - k * cs = cs := by omega
      rw [hsub]
      have hmul : (k + 1) * cs = k * cs + cs := by ring
      have hmin4 : min ((k + 1) * cs) T = k * cs + cs := by omega
      rw [hmin4, List.range_add]
    · have hminT : min (k * cs + cs) T = T := by omega
      rw [hminT]
      have hmul : (k + 1) * cs = k * cs + cs := by ring
      have hm : min ((k + 1) * cs) T = T := by omega
      rw [hm]
      have hTeq : T = k * cs + (T - k * cs) := by omega
      conv_rhs => rw [hTeq]
      rw [List.range_add]

/-- The chunk loop visits every restricted time index exactly once, in order. -/
lemma bind_chunkIdx_eq_range (T cs : ℕ) (hcs : 1 ≤ cs) :
    (List.range (niter T cs)).flatMap (chunkIdx T cs) = List.range T := by
  rw [range_bind_chunkIdx T cs hcs (niter T cs) (le_refl _)]
  have := le_niter_mul T cs hcs
  congr 1
  omega

lemma chunkedSeries_eq {α : Type} (T cs : ℕ) (f : ℕ → α) (hcs : 1 ≤ cs) :
    chunkedSeries T cs f = singleChunkSeries T f := by
  unfold chunkedSeries singleChunkSeries
  rw [← bind_chunkIdx_eq_range T cs hcs, List.map_flatMap]

lemma mem_chunkIdx_iff (T cs n t : ℕ) (hcs : 1 ≤ cs) (hn : n < niter T cs) :
    t ∈ chunkIdx T cs n ↔ n * cs ≤ t ∧ t < min (n * cs + cs) T := by
  rw [chunkIdx_eq T cs n hcs hn]
  simp only [List.mem_map, List.mem_range]
  constructor
  · rintro ⟨i, hi, rfl⟩
    omega
  · rintro ⟨h1, h2⟩
    exact ⟨t - n * cs, by omega, by omega⟩

lemma exists_unique_chunk (T cs t : ℕ) (hcs : 1 ≤ cs) (ht : t < T) :
    ∃! n, n < niter T cs ∧ t ∈ chunkIdx T cs n := by
  have hdm := Nat.div_add_mod t cs
  have hmod : t % cs < cs := Nat.mod_lt t (by omega)
  have hcomm : t / cs * cs = cs * (t / cs) := Nat.mul_comm _ _
  have hlow : t / cs * cs ≤ t := by omega
  have hhigh : t < t / cs * cs + cs := by omega
  have hnlt : t / cs < niter T cs := by
    by_contra hge
    push_neg at hge
    have := le_niter_mul T cs hcs
    have : niter T cs * cs ≤ t / cs * cs := Nat.mul_le_mul_right cs hge
    omega
  refine ⟨t / cs, ⟨hnlt, ?_⟩, ?_⟩
  · rw [mem_chunkIdx_iff T cs _ t hcs hnlt]
    omega
  · rintro m ⟨hm, hmem⟩
    rw [mem_chunkIdx_iff T cs m t hcs hm] at hmem
    have h1 : m * cs ≤ t := hmem.1
    have h2 : t < m * cs + cs := by omega
    have h3 : t < (m + 1) * cs := by
      have : (m + 1) * cs = m * cs + cs := by ring
      omega
    exact (Nat.div_eq_of_lt_le h1 h3).symm

lemma chunkIdx_length_le (T cs n : ℕ) (hcs : 1 ≤ cs) (hn : n < niter T cs) :
    (chunkIdx T cs n).length ≤ cs := by
  rw [chunkIdx_length T cs n hcs hn]
  omega

lemma chunkIdx_length_full (T cs n : ℕ) (hcs : 1 ≤ cs) (hn : n + 1 < niter T cs) :
    (chunkIdx T cs n).length = cs := by
  have h1 : (n + 1) * cs < T := mul_lt_of_lt_niter T cs (n + 1) hcs hn
  have h2 : (n + 1) * cs = n * cs + cs := by ring
  rw [chunkIdx_length T cs n hcs (by omega)]
  omega

/-- Filtering `range T` by membership in the closed interval `[a, b]` yields the
index window starting at `a`. -/
lemma range_filter_interval (a b : ℕ) :
    ∀ T, (List.range T).filter (fun j => decide (a ≤ j) && decide (j ≤ b)) =
      (List.range (min (b + 1) T - a)).map (fun i => a + i) := by
  intro T
  induction T with
  | zero => simp
  | succ T ih =>
    rw [List.range_succ, List.filter_append, ih]
    by_cases hb : T ≤ b
    · by_cases ha : a ≤ T
      · have e1 : min (b + 1) T - a = T - a := by omega
        have e2 : min (b + 1) (T + 1) - a = (T - a) + 1 := by omega
        have e4 : a + (T - a) = T := by omega
        rw [e1, e2, List.range_succ, List.map_append]
        simp [List.filter_cons, ha, hb, e4]
      · have e1 : min (b + 1) T - a = 0 := by omega
        have e2 : min (b + 1) (T + 1) - a = 0 := by omega
        rw [e1, e2]
        simp [List.filter_cons, ha]
    · have e1 : min (b + 1) (T + 1) - a = min (b + 1) T - a := by omega
      rw [e1]
      simp [List.filter_cons, hb]

/-- On a strictly increasing time vector, value comparison is index comparison. -/
lemma getD_le_getD_iff (tv : List ℚ) (hmono : List.Pairwise (· < ·) tv)
    (i j : ℕ) (hi : i < tv.length) (hj : j < tv.length) :
    tv.getD i 0 ≤ tv.getD j 0 ↔ i ≤ j := by
  have hg := List.pairwise_iff_getElem.mp hmono
  rw [tv.getD_eq_getElem 0 hi, tv.getD_eq_getElem 0 hj]
  constructor
  · intro hle
    by_contra hgt
    push_neg at hgt
    exact absurd hle (not_le.mpr (hg j i hj hi hgt))
  · intro hle
    rcases Nat.eq_or_lt_of_le hle with h | h
    · subst h
      exact le_refl _
    · exact le_of_lt (hg i j hi hj h)

/-- The chunk time-mask (line 1047): selecting, on a strictly increasing time
vector, the indices whose time lies between the chunk's first and last time
values picks exactly the chunk's index window. -/
lemma chunk_mask_eq (T cs n : ℕ) (hcs : 1 ≤ cs) (hn : n < niter T cs)
    (tv : List ℚ) (hlen : tv.length = T) (hmono : List.Pairwise (· < ·) tv) :
    (List.range T).filter (fun j =>
        decide (tv.getD (chunkBeg cs n) 0 ≤ tv.getD j 0) &&
        decide (tv.getD j 0 ≤ tv.getD (chunkEnd T cs n) 0)) = chunkIdx T cs n := by
  have hbegT : chunkBeg cs n < T := by
    have := mul_lt_of_lt_niter T cs n hcs hn
    unfold chunkBeg
    omega
  have hendT : chunkEnd T cs n < T := by
    have := mul_lt_of_lt_niter T cs n hcs hn
    unfold chunkEnd
    omega
  have hstep : (List.range T).filter (fun j =>
        decide (tv.getD (chunkBeg cs n) 0 ≤ tv.getD j 0) &&
        decide (tv.getD j 0 ≤ tv.getD (chunkEnd T cs n) 0)) =
      (List.range T).filter (fun j =>
        decide (chunkBeg cs n ≤ j) && decide (j ≤ chunkEnd T cs n)) := by
    apply List.filter_congr
    intro j hj
    rw [List.mem_range] at hj
    have h1 := getD_le_getD_iff tv hmono (chunkBeg cs n) j (by omega) (by omega)
    have h2 := getD_le_getD_iff tv hmono j (chunkEnd T cs n) (by omega) (by omega)
    rw [decide_eq_decide.mpr h1, decide_eq_decide.mpr h2]
  rw [hstep, range_filter_interval (chunkBeg cs n) (chunkEnd T cs n) T]
  have hmin : min (chunkEnd T cs n + 1) T = chunkEnd T cs n + 1 := by omega
  rw [hmin]
  rfl

/-- Claim C1: for every chunk size `cs ≥ 1`, the concatenation of the per-chunk
appends of `ERA2station` (chunks visited in increasing order) equals the series
obtained by processing the whole restricted range as a single chunk; the chunk
partition assigns each restricted index to exactly one chunk of at most `cs`
steps, every chunk except the last being exactly `cs` steps; and on a strictly
increasing time vector the chunk time-mask of line 1047 selects exactly the
chunk's index window. -/
theorem era2station_chunking {α : Type} (T cs : ℕ) (f : ℕ → α) (hcs : 1 ≤ cs) :
    chunkedSeries T cs f = singleChunkSeries T f ∧
    (∀ t, t < T → ∃! n, n < niter T cs ∧ t ∈ chunkIdx T cs n) ∧
    (∀ n, n < niter T cs → (chunkIdx T cs n).length ≤ cs) ∧
    (∀ n, n + 1 < niter T cs → (chunkIdx T cs n).length = cs) ∧
    (∀ tv : List ℚ, tv.length = T → List.Pairwise (· < ·) tv →
      ∀ n, n < niter T cs →
        (List.range T).filter (fun j =>
            decide (tv.getD (chunkBeg cs n) 0 ≤ tv.getD j 0) &&
            decide (tv.getD j 0 ≤ tv.getD (chunkEnd T cs n) 0)) = chunkIdx T cs n) := by
  refine ⟨chunkedSeries_eq T cs f hcs, ?_, ?_, ?_, ?_⟩
  · intro t ht
    exact exists_unique_chunk T cs t hcs ht
  · intro n hn
    exact chunkIdx_length_le T cs n hcs hn
  · intro n hn
    exact chunkIdx_length_full T cs n hcs hn
  · intro tv hlen hmono n hn
    exact chunk_mask_eq T cs n hcs hn tv hlen hmono

/-- Witness for C1 at `T = 5`, `cs = 2`, `f = Nat.cast`. -/
theorem era2station_chunking_witness :
    1 ≤ 2 ∧
    (chunkedSeries 5 2 (fun i => (i : ℚ)) = singleChunkSeries 5 (fun i => (i : ℚ)) ∧
    (∀ t, t < 5 → ∃! n, n < niter 5 2 ∧ t ∈ chunkIdx 5 2 n) ∧
    (∀ n, n < niter 5 2 → (chunkIdx 5 2 n).length ≤ 2) ∧
    (∀ n, n + 1 < niter 5 2 → (chunkIdx 5 2 n).length = 2) ∧
    (∀ tv : List ℚ, tv.length = 5 → List.Pairwise (· < ·) tv →
      ∀ n, n < niter 5 2 →
        (List.range 5).filter (fun j =>
            decide (tv.getD (chunkBeg 2 n) 0 ≤ tv.getD j 0) &&
            decide (tv.getD j 0 ≤ tv.getD (chunkEnd 5 2 n) 0)) = chunkIdx 5 2 n)) :=
  ⟨by decide, era2station_chunking 5 2 (fun i => (i : ℚ)) (by decide)⟩

/-- Claim C6: the offset `beg` at which chunk `n` is appended equals the total
length of all previously appended chunks; the chunk occupies exactly the output
rows `beg … end`; the next chunk starts right where this one ends (no gap, no
overlap); and the final chunk ends exactly at the last restricted index. -/
theorem era2station_offsets (T cs n : ℕ) (hcs : 1 ≤ cs) (hn : n < niter T cs) :
    chunkBeg cs n = ((List.range n).map (fun m => (chunkIdx T cs m).length)).sum ∧
    chunkBeg cs n + (chunkIdx T cs n).length = chunkEnd T cs n + 1 ∧
    (n + 1 < niter T cs → chunkBeg cs (n + 1) = chunkEnd T cs n + 1) ∧
    (n + 1 = niter T cs → chunkEnd T cs n + 1 = T) := by
  have hlt : n * cs < T := mul_lt_of_lt_niter T cs n hcs hn
  refine ⟨?_, ?_, ?_, ?_⟩
  · have hrepl : (List.range n).map (fun m => (chunkIdx T cs m).length) =
        List.replicate n cs := by
      apply List.eq_replicate_iff.mpr
      refine ⟨by simp, ?_⟩
      intro b hb
      rw [List.mem_map] at hb
      obtain ⟨m, hm, rfl⟩ := hb
      rw [List.mem_range] at hm
      exact chunkIdx_length_full T cs m hcs (by omega)
    rw [hrepl, List.sum_replicate, smul_eq_mul]
    unfold chunkBeg
    ring
  · rw [chunkIdx_length T cs n hcs hn]
    unfold chunkBeg chunkEnd
    omega
  · intro hn1
    have h1 : (n + 1) * cs < T := mul_lt_of_lt_niter T cs (n + 1) hcs hn1
    have h2 : (n + 1) * cs = n * cs + cs := by ring
    unfold chunkBeg chunkEnd
    omega
  · intro hn1
    have h1 := le_niter_mul T cs hcs
    rw [← hn1] at h1
    have h2 : (n + 1) * cs = n * cs + cs := by ring
    unfold chunkEnd
    omega

/-- Witness for C6 at `T = 5`, `cs = 2`, `n = 1`. -/
theorem era2station_offsets_witness :
    (1 ≤ 2 ∧ 1 < niter 5 2) ∧
    (chunkBeg 2 1 = ((List.range 1).map (fun m => (chunkIdx 5 2 m).length)).sum ∧
    chunkBeg 2 1 + (chunkIdx 5 2 1).length = chunkEnd 5 2 1 + 1 ∧
    (1 + 1 < niter 5 2 → chunkBeg 2 (1 + 1) = chunkEnd 5 2 1 + 1) ∧
    (1 + 1 = niter 5 2 → chunkEnd 5 2 1 + 1 = 5)) :=
  ⟨⟨by decide, by decide⟩, era2station_offsets 5 2 1 (by decide) (by decide)⟩

lemma argminAux_of_le (xs : List ℚ) (bv : ℚ) (best : ℕ)
    (hle : ∀ x ∈ xs, bv ≤ x) : ∀ i, argminAux xs bv i best = best := by
  induction xs with
  | nil => intro i; rfl
  | cons x xs ih =>
    intro i
    have hx : bv ≤ x := hle x (by simp)
    simp only [argminAux, if_neg (not_lt.mpr hx)]
    exact ih (fun y hy => hle y (by simp [hy])) (i + 1)

lemma argminAux_of_strict (xs : List ℚ) :
    ∀ (bv : ℚ) (i best k : ℕ), k < xs.length →
      xs.getD k 0 < bv →
      (∀ j, j < xs.length → j ≠ k → xs.getD k 0 < xs.getD j 0) →
      argminAux xs bv i best = i + k := by
  induction xs with
  | nil =>
    intro bv i best k hk
    simp at hk
  | cons x xs ih =>
    intro bv i best k hk hlt hmin
    cases k with
    | zero =>
      have hx : x < bv := by simpa using hlt
      simp only [argminAux, if_pos hx]
      have hrest : ∀ y ∈ xs, x ≤ y := by
        intro y hy
        obtain ⟨j, hj, rfl⟩ := List.mem_iff_getElem.mp hy
        have := hmin (j + 1) (by simpa using Nat.succ_lt_succ hj) (by simp)
        rw [List.getD_cons_zero, List.getD_cons_succ] at this
        rw [List.getD_eq_getElem _ _ hj] at this
        exact le_of_lt this
      rw [argminAux_of_le xs x i hrest (i + 1)]
      omega
    | succ k =>
      have hk' : k < xs.length := by simpa using hk
      have hlt' : xs.getD k 0 < bv := by
        rw [List.getD_cons_succ] at hlt
        exact hlt
      have hmin' : ∀ j, j < xs.length → j ≠ k → xs.getD k 0 < xs.getD j 0 := by
        intro j hj hjk
        have := hmin (j + 1) (by simpa using Nat.succ_lt_succ hj) (by omega)
        rw [List.getD_cons_succ, List.getD_cons_succ] at this
        exact this
      by_cases hxb : x < bv
      · have hxk : xs.getD k 0 < x := by
          have := hmin 0 (by simp) (by omega)
          rw [List.getD_cons_succ, List.getD_cons_zero] at this
          exact this
        simp only [argminAux, if_pos hxb]
        rw [ih x (i + 1) i k hk' hxk hmin']
        omega
      · simp only [argminAux, if_neg hxb]
        rw [ih bv (i + 1) best k hk' hlt' hmin']
        omega

/-- `np.argmin` returns the index of a unique strict minimum. -/
lemma argmin_of_strict (l : List ℚ) (k : ℕ) (hk : k < l.length)
    (hmin : ∀ j, j < l.length → j ≠ k → l.getD k 0 < l.getD j 0) :
    argmin l = k := by
  cases l with
  | nil => simp at hk
  | cons x xs =>
    cases k with
    | zero =>
      simp only [argmin]
      apply argminAux_of_le
      intro y hy
      obtain ⟨j, hj, rfl⟩ := List.mem_iff_getElem.mp hy
      have := hmin (j + 1) (by simpa using Nat.succ_lt_succ hj) (by simp)
      rw [List.getD_cons_zero, List.getD_cons_succ] at this
      rw [List.getD_eq_getElem _ _ hj] at this
      exact le_of_lt this
    | succ k =>
      have hk' : k < xs.length := by simpa using hk
      have hlt : xs.getD k 0 < x := by
        have := hmin 0 (by simp) (by omega)
        rw [List.getD_cons_succ, List.getD_cons_zero] at this
        exact this
      have hmin' : ∀ j, j < xs.length → j ≠ k → xs.getD k 0 < xs.getD j 0 := by
        intro j hj hjk
        have := hmin (j + 1) (by simpa using Nat.succ_lt_succ hj) (by omega)
        rw [List.getD_cons_succ, List.getD_cons_succ] at this
        exact this
      simp only [argmin]
      rw [argminAux_of_strict xs x 1 0 k hk' hlt hmin']
      omega

lemma argminAux_cases (xs : List ℚ) : ∀ (bv : ℚ) (i best : ℕ),
    argminAux xs bv i best = best ∨
    (i ≤ argminAux xs bv i best ∧ argminAux xs bv i best < i + xs.length) := by
  induction xs with
  | nil => intro bv i best; left; rfl
  | cons x xs ih =>
    intro bv i best
    by_cases hx : x < bv
    · simp only [argminAux, if_pos hx]
      rcases ih x (i + 1) i with hc | hc
      · right
        rw [hc]
        simp
      · right
        simp only [List.length_cons]
        omega
    · simp only [argminAux, if_neg hx]
      rcases ih bv (i + 1) best with hc | hc
      · left
        exact hc
      · right
        simp only [List.length_cons]
        omega

lemma argmin_lt_length (l : List ℚ) (hne : l ≠ []) : argmin l < l.length := by
  cases l with
  | nil => simp at hne
  | cons x xs =>
    simp only [argmin]
    rcases argminAux_cases xs x 1 0 with hc | hc
    · rw [hc]
      simp
    · simp only [List.length_cons]
      omega

lemma npabs_nonneg (x : ℚ) : 0 ≤ npabs x := by
  unfold npabs
  split <;> linarith

lemma npabs_eq_zero (x : ℚ) : npabs x = 0 ↔ x = 0 := by
  unfold npabs
  split <;> constructor <;> intro <;> linarith

lemma dele_length (ele : List ℚ) (h : ℚ) : (dele ele h).length = ele.length := by
  simp [dele]

lemma penalized_length (ele : List ℚ) (h : ℚ) :
    (penalized ele h).length = ele.length := by
  simp [penalized, dele]

lemma dele_getD (ele : List ℚ) (h : ℚ) (j : ℕ) (hj : j < ele.length) :
    (dele ele h).getD j 0 = ele.getD j 0 - h := by
  unfold dele
  rw [List.getD_eq_getElem _ _ (by simpa using hj), List.getElem_map,
    List.getD_eq_getElem _ _ hj]

lemma penalized_getD (ele : List ℚ) (h : ℚ) (j : ℕ) (hj : j < ele.length) :
    (penalized ele h).getD j 0 =
      (ele.getD j 0 - h) + (if ele.getD j 0 - h < 0 then (100000 : ℚ) else 0) := by
  have hjd : j < (dele ele h).length := by
    rw [dele_length]
    exact hj
  have hd : (dele ele h).getD j 0 = ele.getD j 0 - h := dele_getD ele h j hj
  unfold penalized
  rw [List.getD_eq_getElem _ _ (by simpa [dele] using hj), List.getElem_map,
    ← List.getD_eq_getElem (dele ele h) 0 hjd, hd]

lemma desc_getD (ele : List ℚ) (hdesc : List.Pairwise (fun a b => b < a) ele)
    (i j : ℕ) (hij : i < j) (hj : j < ele.length) :
    ele.getD j 0 < ele.getD i 0 := by
  have hg := List.pairwise_iff_getElem.mp hdesc
  rw [List.getD_eq_getElem _ _ hj, List.getD_eq_getElem _ _ (by omega : i < ele.length)]
  exact hg i j (by omega) hj hij

lemma desc_getD_le (ele : List ℚ) (hdesc : List.Pairwise (fun a b => b < a) ele)
    (i j : ℕ) (hij : i ≤ j) (hj : j < ele.length) :
    ele.getD j 0 ≤ ele.getD i 0 := by
  rcases Nat.eq_or_lt_of_le hij with rfl | hlt
  · exact le_refl _
  · exact le_of_lt (desc_getD ele hdesc i j hlt hj)

/-- When every level lies strictly above the station, the level search picks
the lowest level (last index). -/
lemma va_of_below (ele : List ℚ) (h : ℚ) (hne : ele ≠ [])
    (hdesc : List.Pairwise (fun a b => b < a) ele)
    (hbelow : ∀ e ∈ ele, h < e) :
    va ele h = ele.length - 1 := by
  have hlen : 0 < ele.length := List.length_pos.mpr hne
  have hgt : ∀ m, m < ele.length → 0 < ele.getD m 0 - h := by
    intro m hm
    have hmem : ele.getD m 0 ∈ ele := by
      rw [List.getD_eq_getElem _ _ hm]
      exact List.getElem_mem hm
    linarith [hbelow _ hmem]
  unfold va
  apply argmin_of_strict _ (ele.length - 1) (by rw [penalized_length]; omega)
  intro j hj hjne
  rw [penalized_length] at hj
  rw [penalized_getD _ _ _ hj, penalized_getD _ _ _ (by omega)]
  have h1 := hgt j hj
  have h2 := hgt (ele.length - 1) (by omega)
  rw [if_neg (by linarith), if_neg (by linarith)]
  have hlt : ele.getD (ele.length - 1) 0 < ele.getD j 0 :=
    desc_getD ele hdesc j (ele.length - 1) (by omega) (by omega)
  linarith

/-- Claim C3: for a station strictly below the lowest level (every level height
strictly above the station elevation), the interpolated value of every variable
equals exactly the lowest level's value. -/
theorem levels2elevation_below_lowest (ele data : List ℚ) (h : ℚ)
    (hne : ele ≠ [])
    (hdesc : List.Pairwise (fun a b => b < a) ele)
    (hbelow : ∀ e ∈ ele, h < e) :
    ipol ele h data = data.getD (ele.length - 1) 0 := by
  have hlen : 0 < ele.length := List.length_pos.mpr hne
  have hva := va_of_below ele h hne hdesc hbelow
  have hmask : maskBelow ele h = false := by
    unfold maskBelow
    rw [hva]
    simp
  have hvb : vb ele h = ele.length - 1 := by
    unfold vb
    rw [hmask, hva]
    simp
  have hdpos : 0 < ele.getD (ele.length - 1) 0 - h := by
    have hmem : ele.getD (ele.length - 1) 0 ∈ ele := by
      rw [List.getD_eq_getElem _ _ (by omega)]
      exact List.getElem_mem (by omega)
    linarith [hbelow _ hmem]
  have hdel : (dele ele h).getD (ele.length - 1) 0 = ele.getD (ele.length - 1) 0 - h :=
    dele_getD ele h _ (by omega)
  unfold ipol waNorm wbNorm wt waRaw wbRaw
  rw [hva, hvb, hdel]
  have habs : npabs (ele.getD (ele.length - 1) 0 - h) = ele.getD (ele.length - 1) 0 - h := by
    unfold npabs
    rw [if_neg (not_lt.mpr (le_of_lt hdpos))]
  rw [habs]
  have hgen : ∀ a d : ℚ, d ≠ 0 → a * (d / (d + d)) + a * (d / (d + d)) = a := by
    intro a d hd
    have h2d : d + d ≠ 0 := by
      intro hc
      apply hd
      linarith
    field_simp
    ring
  exact hgen _ _ (ne_of_gt hdpos)

/-- Witness for C3: station at `h = 10` below levels of heights `[300, 200, 100]`,
variable values `[7, 8, 9]`. -/
theorem levels2elevation_below_lowest_witness :
    (([(300 : ℚ), 200, 100] : List ℚ) ≠ [] ∧
      List.Pairwise (fun a b : ℚ => b < a) [(300 : ℚ), 200, 100] ∧
      (∀ e ∈ [(300 : ℚ), 200, 100], (10 : ℚ) < e)) ∧
    ipol [(300 : ℚ), 200, 100] 10 [7, 8, 9] =
      ([(7 : ℚ), 8, 9]).getD ([(300 : ℚ), 200, 100].length - 1) 0 :=
  ⟨⟨by simp, by norm_num [List.pairwise_cons], by norm_num⟩,
    levels2elevation_below_lowest [(300 : ℚ), 200, 100] [7, 8, 9] 10
      (by simp) (by norm_num [List.pairwise_cons]) (by norm_num)⟩

/-- When the station is strictly bracketed by adjacent levels `i` (above) and
`i+1` (below) and the full height span of the level axis stays below the
`100000` penalty constant, the level search picks the bracket. -/
lemma va_of_bracket (ele : List ℚ) (h : ℚ) (i : ℕ)
    (hi1 : i + 1 < ele.length)
    (hdesc : List.Pairwise (fun a b => b < a) ele)
    (hspan : ele.getD 0 0 - ele.getD (ele.length - 1) 0 < 100000)
    (habove : h < ele.getD i 0) (hbelow : ele.getD (i + 1) 0 < h) :
    va ele h = i := by
  unfold va
  apply argmin_of_strict _ i (by rw [penalized_length]; omega)
  intro j hj hjne
  rw [penalized_length] at hj
  rw [penalized_getD _ _ _ hj, penalized_getD _ _ _ (by omega)]
  have hdi : 0 < ele.getD i 0 - h := by linarith
  rw [if_neg (by linarith)]
  rcases lt_or_gt_of_ne hjne with hji | hji
  · have hj_gt : ele.getD i 0 < ele.getD j 0 := desc_getD ele hdesc j i hji (by omega)
    rw [if_neg (by linarith)]
    linarith
  · have hj_le : ele.getD j 0 ≤ ele.getD (i + 1) 0 :=
      desc_getD_le ele hdesc (i + 1) j hji hj
    have hneg : ele.getD j 0 - h < 0 := by linarith
    rw [if_pos hneg]
    have hi0 : ele.getD i 0 ≤ ele.getD 0 0 :=
      desc_getD_le ele hdesc 0 i (Nat.zero_le _) (by omega)
    have hjl : ele.getD (ele.length - 1) 0 ≤ ele.getD j 0 :=
      desc_getD_le ele hdesc j (ele.length - 1) (by omega) (by omega)
    linarith

lemma convex_comb_bounds (a b w1 w2 : ℚ) (h1 : 0 ≤ w1) (h2 : 0 ≤ w2)
    (hsum : w1 + w2 = 1) :
    min a b ≤ a * w1 + b * w2 ∧ a * w1 + b * w2 ≤ max a b := by
  constructor
  · have e1 : min a b * w1 ≤ a * w1 := mul_le_mul_of_nonneg_right (min_le_left a b) h1
    have e2 : min a b * w2 ≤ b * w2 := mul_le_mul_of_nonneg_right (min_le_right a b) h2
    calc min a b = min a b * w1 + min a b * w2 := by rw [← mul_add, hsum, mul_one]
    _ ≤ a * w1 + b * w2 := add_le_add e1 e2
  · have e1 : a * w1 ≤ max a b * w1 := mul_le_mul_of_nonneg_right (le_max_left a b) h1
    have e2 : b * w2 ≤ max a b * w2 := mul_le_mul_of_nonneg_right (le_max_right a b) h2
    calc a * w1 + b * w2 ≤ max a b * w1 + max a b * w2 := add_le_add e1 e2
    _ = max a b := by rw [← mul_add, hsum, mul_one]

/-- Claim C2 counterexample: station at `h = 0` lies strictly between adjacent
level heights `1` and `-200000` (a strictly descending axis), but because the
height gap exceeds the `100000` penalty constant of line 1174, the code does
not use the bracketing pair: it clamps to the lowest level and returns `0`,
not the spec's inverse-distance value. -/
theorem levels2elevation_weights_cex :
    ((-200000 : ℚ) < 1 ∧ (-200000 : ℚ) < 0 ∧ (0 : ℚ) < 1) ∧
    ipol [(1 : ℚ), -200000] 0 [1, 0] ≠ specInterp 1 (-200000) 1 0 0 := by
  constructor
  · exact ⟨by norm_num, by norm_num, by norm_num⟩
  · norm_num [ipol, waNorm, wbNorm, wt, waRaw, wbRaw, vb, maskBelow, va, penalized,
      dele, argmin, argminAux, npabs, specInterp]

/-- Claim C2 (amended: the height span of the level axis must stay below the
`100000` m penalty constant): for a station strictly between two adjacent
levels, the code uses the bracketing pair, the two normalized weights are the
spec's inverse-distance weights and sum to `1`, and the interpolated value lies
between the two bracketing levels' values.  All quantities are recomputed from
the row of the given time step, hence independently at every time step. -/
theorem levels2elevation_weights (ele data : List ℚ) (h : ℚ) (i : ℕ)
    (hi1 : i + 1 < ele.length)
    (hdesc : List.Pairwise (fun a b => b < a) ele)
    (hspan : ele.getD 0 0 - ele.getD (ele.length - 1) 0 < 100000)
    (habove : h < ele.getD i 0) (hbelow : ele.getD (i + 1) 0 < h) :
    va ele h = i ∧ vb ele h = i + 1 ∧
    waNorm ele h + wbNorm ele h = 1 ∧
    ipol ele h data =
      specInterp (ele.getD i 0) (ele.getD (i + 1) 0)
        (data.getD i 0) (data.getD (i + 1) 0) h ∧
    min (data.getD i 0) (data.getD (i + 1) 0) ≤ ipol ele h data ∧
    ipol ele h data ≤ max (data.getD i 0) (data.getD (i + 1) 0) := by
  have hva := va_of_bracket ele h i hi1 hdesc hspan habove hbelow
  have hmask : maskBelow ele h = true := by
    unfold maskBelow
    rw [hva]
    simp
    omega
  have hvb : vb ele h = i + 1 := by
    unfold vb
    rw [hmask, hva]
    simp
  have hwa : waRaw ele h = h - ele.getD (i + 1) 0 := by
    unfold waRaw
    rw [hvb, dele_getD _ _ _ (by omega)]
    unfold npabs
    rw [if_pos (by linarith)]
    ring
  have hwb : wbRaw ele h = ele.getD i 0 - h := by
    unfold wbRaw
    rw [hva, dele_getD _ _ _ (by omega)]
    unfold npabs
    rw [if_neg (by push_neg; linarith)]
  have hwt : wt ele h = (h - ele.getD (i + 1) 0) + (ele.getD i 0 - h) := by
    unfold wt
    rw [hwa, hwb]
  have hwtpos : 0 < wt ele h := by
    rw [hwt]
    linarith
  have hwtne : wt ele h ≠ 0 := ne_of_gt hwtpos
  have hsum : waNorm ele h + wbNorm ele h = 1 := by
    unfold waNorm wbNorm
    rw [div_add_div_same]
    unfold wt
    rw [div_self (by rw [← wt]; exact hwtne)]
  have habs1 : npabs (ele.getD (i + 1) 0 - h) = h - ele.getD (i + 1) 0 := by
    unfold npabs
    rw [if_pos (by linarith)]
    ring
  have habs2 : npabs (ele.getD i 0 - h) = ele.getD i 0 - h := by
    unfold npabs
    rw [if_neg (by push_neg; linarith)]
  have hipol : ipol ele h data =
      specInterp (ele.getD i 0) (ele.getD (i + 1) 0)
        (data.getD i 0) (data.getD (i + 1) 0) h := by
    unfold ipol specInterp waNorm wbNorm
    rw [hva, hvb, hwa, hwb, hwt, habs1, habs2]
    ring
  have hwann : 0 ≤ waNorm ele h := by
    unfold waNorm
    apply div_nonneg _ (le_of_lt hwtpos)
    rw [hwa]
    linarith
  have hwbnn : 0 ≤ wbNorm ele h := by
    unfold wbNorm
    apply div_nonneg _ (le_of_lt hwtpos)
    rw [hwb]
    linarith
  have hbnd := convex_comb_bounds (data.getD i 0) (data.getD (i + 1) 0)
    (waNorm ele h) (wbNorm ele h) hwann hwbnn hsum
  have hipol2 : ipol ele h data =
      data.getD i 0 * waNorm ele h + data.getD (i + 1) 0 * wbNorm ele h := by
    unfold ipol
    rw [hva, hvb]
  exact ⟨hva, hvb, hsum, hipol, by rw [hipol2]; exact hbnd.1, by rw [hipol2]; exact hbnd.2⟩

/-- Witness for C2 (amended): station at `h = 150` between level heights
`[300, 200, 100]` bracketed by indices `1` and `2`. -/
theorem levels2elevation_weights_witness :
    (1 + 1 < ([(300 : ℚ), 200, 100] : List ℚ).length ∧
      List.Pairwise (fun a b : ℚ => b < a) [(300 : ℚ), 200, 100] ∧
      ([(300 : ℚ), 200, 100].getD 0 0 - [(300 : ℚ), 200, 100].getD 2 0 < 100000) ∧
      (150 : ℚ) < [(300 : ℚ), 200, 100].getD 1 0 ∧
      [(300 : ℚ), 200, 100].getD 2 0 < (150 : ℚ)) ∧
    (va [(300 : ℚ), 200, 100] 150 = 1 ∧ vb [(300 : ℚ), 200, 100] 150 = 2 ∧
    waNorm [(300 : ℚ), 200, 100] 150 + wbNorm [(300 : ℚ), 200, 100] 150 = 1 ∧
    ipol [(300 : ℚ), 200, 100] 150 [7, 8, 9] =
      specInterp ([(300 : ℚ), 200, 100].getD 1 0) ([(300 : ℚ), 200, 100].getD 2 0)
        (([(7 : ℚ), 8, 9]).getD 1 0) (([(7 : ℚ), 8, 9]).getD 2 0) 150 ∧
    min (([(7 : ℚ), 8, 9]).getD 1 0) (([(7 : ℚ), 8, 9]).getD 2 0) ≤
      ipol [(300 : ℚ), 200, 100] 150 [7, 8, 9] ∧
    ipol [(300 : ℚ), 200, 100] 150 [7, 8, 9] ≤
      max (([(7 : ℚ), 8, 9]).getD 1 0) (([(7 : ℚ), 8, 9]).getD 2 0)) :=
  ⟨⟨by norm_num, by norm_num [List.pairwise_cons], by norm_num, by norm_num, by norm_num⟩,
    levels2elevation_weights [(300 : ℚ), 200, 100] [7, 8, 9] 150 1
      (by norm_num) (by norm_num [List.pairwise_cons]) (by norm_num) (by norm_num)
      (by norm_num)⟩

/-- Claim C4 counterexample: a non-empty, strictly descending level axis
`[100, 50]` with the station exactly at the lowest level's height `50` makes
the weight divisor `wt` zero, so `wa /= wt` (line 1187) divides zero by zero. -/
theorem levels2elevation_divzero_cex :
    (([(100 : ℚ), 50] : List ℚ) ≠ [] ∧ (50 : ℚ) < 100) ∧
    wt [(100 : ℚ), 50] 50 = 0 := by
  refine ⟨⟨by simp, by norm_num⟩, ?_⟩
  norm_num [wt, waRaw, wbRaw, vb, maskBelow, va, penalized, dele, argmin, argminAux,
    npabs]

/-- Claim C4 (amended: the station elevation must differ from the lowest
level's height): on a non-empty strictly descending level axis, the weight
divisor `wt` is nonzero — in particular no division by zero occurs — for every
station whose elevation is not exactly the lowest level's height (elevations
equal to any higher level's height included). -/
theorem levels2elevation_wt_nonzero (ele : List ℚ) (h : ℚ) (hne : ele ≠ [])
    (hdesc : List.Pairwise (fun a b => b < a) ele)
    (hlast : h ≠ ele.getD (ele.length - 1) 0) :
    wt ele h ≠ 0 := by
  intro h0
  have hlen : 0 < ele.length := List.length_pos.mpr hne
  have hva : va ele h < ele.length := by
    unfold va
    have hpne : penalized ele h ≠ [] := by
      intro hc
      have := penalized_length ele h
      rw [hc] at this
      simp at this
      omega
    have := argmin_lt_length (penalized ele h) hpne
    rwa [penalized_length] at this
  have hA := npabs_nonneg ((dele ele h).getD (vb ele h) 0)
  have hB := npabs_nonneg ((dele ele h).getD (va ele h) 0)
  unfold wt waRaw wbRaw at h0
  have hA0 : npabs ((dele ele h).getD (vb ele h) 0) = 0 := by linarith
  have hB0 : npabs ((dele ele h).getD (va ele h) 0) = 0 := by linarith
  rw [npabs_eq_zero] at hA0 hB0
  by_cases hm : maskBelow ele h = true
  · have hvb : vb ele h = va ele h + 1 := by
      unfold vb
      rw [hm]
      simp
    have hva1 : va ele h < ele.length - 1 := by
      unfold maskBelow at hm
      simpa using hm
    rw [hvb, dele_getD _ _ _ (by omega)] at hA0
    rw [dele_getD _ _ _ (by omega)] at hB0
    have := desc_getD ele hdesc (va ele h) (va ele h + 1) (by omega) (by omega)
    linarith
  · have hvb : vb ele h = va ele h := by
      unfold vb
      rw [Bool.not_eq_true] at hm
      rw [hm]
      simp
    have hge : ¬ (va ele h < ele.length - 1) := by
      unfold maskBelow at hm
      simpa using hm
    have hvaeq : va ele h = ele.length - 1 := by omega
    rw [hvaeq, dele_getD _ _ _ (by omega)] at hB0
    exact hlast (by linarith)

/-- Witness for C4 (amended): axis `[100, 50]`, station at `70 ≠ 50`. -/
theorem levels2elevation_wt_nonzero_witness :
    (([(100 : ℚ), 50] : List ℚ) ≠ [] ∧
      List.Pairwise (fun a b : ℚ => b < a) [(100 : ℚ), 50] ∧
      (70 : ℚ) ≠ [(100 : ℚ), 50].getD 1 0) ∧
    wt [(100 : ℚ), 50] 70 ≠ 0 :=
  ⟨⟨by simp, by norm_num [List.pairwise_cons], by norm_num⟩,
    levels2elevation_wt_nonzero [(100 : ℚ), 50] 70 (by simp)
      (by norm_num [List.pairwise_cons]) (by norm_num)⟩

/-- Claim C5: the variable-mismatch guard of lines 891–892 can never fire — the
chained comparison is identically false — so in particular it does not fire for
the requested list `["q"]` against a file containing only `["t", "u"]`, even
though `"q"` is absent; and the per-chunk call passes `variables=None`, which
silently replaces the caller's requested list by all file variables. -/
theorem erainterp2d_mismatch_never_raised :
    (∀ vs vl : List String, varCheckCondition vs vl = false) ∧
    (List.all ["q"] (fun v => List.contains ["t", "u"] v) = false ∧
      varCheckCondition ["q"] ["t", "u"] = false) ∧
    (∀ vl : List String, effectiveVariables none vl = vl) := by
  refine ⟨?_, ⟨by decide, by decide⟩, fun vl => rfl⟩
  intro vs vl
  unfold varCheckCondition setEqIntZero
  simp

lemma npclip_bounds (x lo hi : ℚ) (hlohi : lo ≤ hi) :
    lo ≤ npclip x lo hi ∧ npclip x lo hi ≤ hi := by
  unfold npclip
  exact ⟨le_min (le_max_right x lo) hlohi, min_le_right _ _⟩

/-- Claim C7: every value written by the relative-humidity kernel lies within
`[0.1, 99.9]` percent, for all input temperature and dew-point series — also
where the raw `100 - 5·(T - Td)` falls outside those bounds. -/
theorem rh_per_sur_bounds (airt dewp : List ℚ) (x : ℚ)
    (hx : x ∈ RH_per_sur airt dewp) :
    1 / 10 ≤ x ∧ x ≤ 999 / 10 := by
  induction airt generalizing dewp with
  | nil => simp [RH_per_sur] at hx
  | cons a as ih =>
    cases dewp with
    | nil => simp [RH_per_sur] at hx
    | cons d ds =>
      unfold RH_per_sur at hx
      rw [List.zipWith_cons_cons, List.mem_cons] at hx
      rcases hx with rfl | hx
      · exact npclip_bounds _ _ _ (by norm_num)
      · exact ih ds hx

/-- Witness for C7: temperature `305`, dew point `250`; the raw value `-175`
is clipped up to `0.1`. -/
theorem rh_per_sur_bounds_witness :
    (1 : ℚ) / 10 ≤ (1 : ℚ) / 10 ∧ (1 : ℚ) / 10 ≤ 999 / 10 :=
  rh_per_sur_bounds [305] [250] (1 / 10)
    (by norm_num [RH_per_sur, RH_raw, npclip])

lemma times_out_getD (tmin stepH : ℚ) (n i : ℕ) (hi : i < n) :
    (times_out tmin stepH n).getD i 0 = tmin + (i : ℚ) * stepSeconds stepH := by
  have hlen : i < (times_out tmin stepH n).length := by
    unfold times_out
    rw [List.length_map, List.length_range]
    exact hi
  unfold times_out at hlen ⊢
  rw [List.getD_eq_getElem _ _ hlen, List.getElem_map, List.getElem_range]

/-- Claim C8: the output time axis is non-empty, follows the fixed-step formula
`tmin + i·step`, is strictly increasing with consecutive differences exactly
the configured step, starts at the earliest available input timestamp, never
exceeds the latest, and contains every multiple of the step (from `tmin`) that
does not exceed the latest timestamp — in particular the last possible one. -/
theorem scale_time_axis (tmin tmax stepH : ℚ) (hstep : 0 < stepH)
    (hle : tmin ≤ tmax) :
    0 < (nt_out tmin tmax stepH).toNat ∧
    (∀ i : ℕ, i < (nt_out tmin tmax stepH).toNat →
      (times_out tmin stepH (nt_out tmin tmax stepH).toNat).getD i 0 =
        tmin + (i : ℚ) * stepSeconds stepH) ∧
    (∀ i : ℕ, i + 1 < (nt_out tmin tmax stepH).toNat →
      (times_out tmin stepH (nt_out tmin tmax stepH).toNat).getD i 0 <
        (times_out tmin stepH (nt_out tmin tmax stepH).toNat).getD (i + 1) 0 ∧
      (times_out tmin stepH (nt_out tmin tmax stepH).toNat).getD (i + 1) 0 -
        (times_out tmin stepH (nt_out tmin tmax stepH).toNat).getD i 0 =
          stepSeconds stepH) ∧
    (times_out tmin stepH (nt_out tmin tmax stepH).toNat).getD 0 0 = tmin ∧
    (∀ x ∈ times_out tmin stepH (nt_out tmin tmax stepH).toNat,
      tmin ≤ x ∧ x ≤ tmax) ∧
    (∀ k : ℕ, tmin + (k : ℚ) * stepSeconds stepH ≤ tmax →
      tmin + (k : ℚ) * stepSeconds stepH ∈
        times_out tmin stepH (nt_out tmin tmax stepH).toNat) := by
  have hsp : 0 < stepSeconds stepH := by
    unfold stepSeconds
    positivity
  have hfl : 0 ≤ ⌊(tmax - tmin) / 3600 / stepH⌋ := by
    apply Int.floor_nonneg.mpr
    apply div_nonneg (div_nonneg (by linarith) (by norm_num)) (le_of_lt hstep)
  have hNpos : 0 < (nt_out tmin tmax stepH).toNat := by
    unfold nt_out
    omega
  have hcastN : ((nt_out tmin tmax stepH).toNat : ℤ) = nt_out tmin tmax stepH := by
    unfold nt_out
    omega
  have hidx : ∀ i : ℕ, i < (nt_out tmin tmax stepH).toNat ↔
      (i : ℚ) ≤ (tmax - tmin) / 3600 / stepH := by
    intro i
    constructor
    · intro hi
      have h1 : (i : ℤ) < nt_out tmin tmax stepH := by omega
      have h2 : (i : ℤ) ≤ ⌊(tmax - tmin) / 3600 / stepH⌋ := by
        unfold nt_out at h1
        omega
      exact_mod_cast Int.le_floor.mp h2
    · intro hi
      have h2 : (i : ℤ) ≤ ⌊(tmax - tmin) / 3600 / stepH⌋ := Int.le_floor.mpr (by
        push_cast
        exact hi)
      have h1 : (i : ℤ) < nt_out tmin tmax stepH := by
        unfold nt_out
        omega
      omega
  have hdd : (tmax - tmin) / 3600 / stepH = (tmax - tmin) / stepSeconds stepH := by
    unfold stepSeconds
    rw [div_div]
    ring_nf
  have hbound : ∀ i : ℕ, i < (nt_out tmin tmax stepH).toNat →
      tmin + (i : ℚ) * stepSeconds stepH ≤ tmax := by
    intro i hi
    have := (hidx i).mp hi
    rw [hdd] at this
    have h3 : (i : ℚ) * stepSeconds stepH ≤ tmax - tmin := by
      rw [← le_div_iff₀ hsp]
      exact this
    linarith
  refine ⟨hNpos, ?_, ?_, ?_, ?_, ?_⟩
  · intro i hi
    exact times_out_getD tmin stepH _ i hi
  · intro i hi
    rw [times_out_getD tmin stepH _ i (by omega),
      times_out_getD tmin stepH _ (i + 1) hi]
    push_cast
    constructor
    · nlinarith
    · ring
  · rw [times_out_getD tmin stepH _ 0 hNpos]
    simp
  · intro x hx
    unfold times_out at hx
    rw [List.mem_map] at hx
    obtain ⟨i, hi, rfl⟩ := hx
    rw [List.mem_range] at hi
    constructor
    · have : 0 ≤ (i : ℚ) * stepSeconds stepH := by positivity
      linarith
    · exact hbound i hi
  · intro k hk
    have hk2 : (k : ℚ) ≤ (tmax - tmin) / 3600 / stepH := by
      rw [hdd, le_div_iff₀ hsp]
      linarith
    have hkN : k < (nt_out tmin tmax stepH).toNat := (hidx k).mpr hk2
    unfold times_out
    rw [List.mem_map]
    exact ⟨k, List.mem_range.mpr hkN, rfl⟩

/-- Witness for C8: `tmin = 0`, `tmax = 25` (seconds), step `2` hours. -/
theorem scale_time_axis_witness :
    ((0 : ℚ) < 2 ∧ (0 : ℚ) ≤ 25) ∧
    (0 < (nt_out 0 25 2).toNat ∧
    (∀ i : ℕ, i < (nt_out 0 25 2).toNat →
      (times_out 0 2 (nt_out 0 25 2).toNat).getD i 0 = 0 + (i : ℚ) * stepSeconds 2) ∧
    (∀ i : ℕ, i + 1 < (nt_out 0 25 2).toNat →
      (times_out 0 2 (nt_out 0 25 2).toNat).getD i 0 <
        (times_out 0 2 (nt_out 0 25 2).toNat).getD (i + 1) 0 ∧
      (times_out 0 2 (nt_out 0 25 2).toNat).getD (i + 1) 0 -
        (times_out 0 2 (nt_out 0 25 2).toNat).getD i 0 = stepSeconds 2) ∧
    (times_out 0 2 (nt_out 0 25 2).toNat).getD 0 0 = 0 ∧
    (∀ x ∈ times_out 0 2 (nt_out 0 25 2).toNat, (0 : ℚ) ≤ x ∧ x ≤ 25) ∧
    (∀ k : ℕ, (0 : ℚ) + (k : ℚ) * stepSeconds 2 ≤ 25 →
      (0 : ℚ) + (k : ℚ) * stepSeconds 2 ∈ times_out 0 2 (nt_out 0 25 2).toNat)) :=
  ⟨⟨by norm_num, by norm_num⟩, scale_time_axis 0 25 2 (by norm_num) (by norm_num)⟩

/-- Claim C9 counterexample: the cumulative series `[1, 2, 7]` at native times
`[0, 2, 4]` (interval 2, no reset inside the series) has per-interval totals
`[1, 1, 5]`.  Re-integrating the interpolated rate at output step `1` and
re-summing the two output steps of the last native interval gives `4`, not the
original total `5`: the round trip is not exact once the output step subdivides
the native interval and the rate is not constant. -/
theorem prec_roundtrip_cex :
    ((1 : ℚ) < 2 ∧ (2 : ℚ) < 7) ∧
    (cummulative2total [(1 : ℚ), 2, 7] 5).getD 2 0 = 5 ∧
    (fluxKernel [(0 : ℚ), 2, 4] [1, 2, 7] 5 2 [0, 1, 2, 3, 4] 1).getD 3 0 +
      (fluxKernel [(0 : ℚ), 2, 4] [1, 2, 7] 5 2 [0, 1, 2, 3, 4] 1).getD 4 0 = 4 ∧
    (4 : ℚ) ≠ 5 := by
  refine ⟨⟨by norm_num, by norm_num⟩, ?_, ?_, by norm_num⟩
  · norm_num [cummulative2total]
  · norm_num [fluxKernel, cummulative2total, interp1]

/-- Linear interpolation evaluated at a knot abscissa returns the knot
ordinate (knot abscissas strictly increasing). -/
lemma interp1_knot (pts : List (ℚ × ℚ))
    (hmono : List.Pairwise (fun p q : ℚ × ℚ => p.1 < q.1) pts) :
    ∀ j, (hj : j < pts.length) → interp1 pts (pts[j].1) = pts[j].2 := by
  induction pts with
  | nil =>
    intro j hj
    simp at hj
  | cons p rest ih =>
    intro j hj
    cases rest with
    | nil =>
      cases j with
      | zero =>
        obtain ⟨t1, v1⟩ := p
        rfl
      | succ k => simp at hj
    | cons q rest2 =>
      have hcons := List.pairwise_cons.mp hmono
      have hpq : p.1 < q.1 := hcons.1 q (by simp)
      cases j with
      | zero =>
        obtain ⟨t1, v1⟩ := p
        obtain ⟨t2, v2⟩ := q
        show interp1 ((t1, v1) :: (t2, v2) :: rest2) t1 = v1
        unfold interp1
        rw [if_pos (le_of_lt hpq)]
        simp
      | succ k =>
        cases k with
        | zero =>
          obtain ⟨t1, v1⟩ := p
          obtain ⟨t2, v2⟩ := q
          show interp1 ((t1, v1) :: (t2, v2) :: rest2) t2 = v2
          unfold interp1
          rw [if_pos (le_refl t2)]
          have hne : t2 - t1 ≠ 0 := by
            simp only [Prod.fst] at hpq
            intro hc
            apply absurd hpq
            push_neg
            linarith
          field_simp
        | succ m =>
          have hm2 : m + 1 < (q :: rest2).length := by
            simpa using hj
          have hmr : m < rest2.length := by simpa using hm2
          have hq : q.1 < ((q :: rest2)[m + 1]).1 := by
            have hqrest := List.pairwise_cons.mp hcons.2
            have hmem : (q :: rest2)[m + 1] ∈ rest2 := by
              have heq : (q :: rest2)[m + 1] = rest2[m] := by
                simp
              rw [heq]
              exact List.getElem_mem hmr
            exact hqrest.1 _ hmem
          obtain ⟨t1, v1⟩ := p
          obtain ⟨t2, v2⟩ := q
          show interp1 ((t1, v1) :: (t2, v2) :: rest2) (((t2, v2) :: rest2)[m + 1]).1
              = (((t2, v2) :: rest2)[m + 1]).2
          unfold interp1
          rw [if_neg (not_le.mpr hq)]
          exact ih hcons.2 (m + 1) hm2

/-- Claim C9 (amended: the round trip is exact exactly at the native
granularity — output grid equal to the native time grid, output step equal to
the native interval): re-integrating the de-accumulated rate over each native
interval then reproduces the original per-interval totals exactly. -/
theorem prec_roundtrip_native_grid (tIn vals : List ℚ) (r : ℕ) (L : ℚ)
    (hL : L ≠ 0) (hlen : tIn.length = vals.length)
    (hmono : List.Pairwise (· < ·) tIn) :
    fluxKernel tIn vals r L tIn L = cummulative2total vals r := by
  have hrl : (cummulative2total vals r).length = vals.length := by
    simp [cummulative2total]
  have hratel : ((cummulative2total vals r).map (fun v => v / L)).length
      = tIn.length := by
    simp [hrl, hlen]
  have hzlen : (tIn.zip ((cummulative2total vals r).map (fun v => v / L))).length
      = tIn.length := by
    rw [List.length_zip, hratel, min_self]
  have hmf : (tIn.zip ((cummulative2total vals r).map (fun v => v / L))).map
      Prod.fst = tIn :=
    List.map_fst_zip _ _ (by rw [hratel])
  have hpw : List.Pairwise (fun p q : ℚ × ℚ => p.1 < q.1)
      (tIn.zip ((cummulative2total vals r).map (fun v => v / L))) := by
    apply List.pairwise_map.mp
    rw [hmf]
    exact hmono
  apply List.ext_getElem
  · unfold fluxKernel
    rw [List.length_map, hlen, hrl]
  · intro i hi1 hi2
    unfold fluxKernel at hi1 ⊢
    rw [List.getElem_map]
    have hiT : i < tIn.length := by simpa using hi1
    have hiz : i < (tIn.zip ((cummulative2total vals r).map (fun v => v / L))).length := by
      omega
    have hknot : (tIn.zip ((cummulative2total vals r).map (fun v => v / L)))[i]
        = (tIn[i], (cummulative2total vals r)[i] / L) := by
      rw [List.getElem_zip, List.getElem_map]
    have h1 : interp1 (tIn.zip ((cummulative2total vals r).map (fun v => v / L)))
        (tIn[i]) = (cummulative2total vals r)[i] / L := by
      have := interp1_knot _ hpw i hiz
      rw [hknot] at this
      exact this
    rw [h1, div_mul_cancel₀ _ hL]

/-- Witness for C9 (amended): cumulative `[1, 2, 7]` at native times
`[0, 2, 4]`, native interval (and output step) `2`. -/
theorem prec_roundtrip_native_grid_witness :
    ((2 : ℚ) ≠ 0 ∧ ([(0 : ℚ), 2, 4] : List ℚ).length = ([(1 : ℚ), 2, 7] : List ℚ).length ∧
      List.Pairwise (· < ·) [(0 : ℚ), 2, 4]) ∧
    fluxKernel [(0 : ℚ), 2, 4] [1, 2, 7] 5 2 [(0 : ℚ), 2, 4] 2 =
      cummulative2total [(1 : ℚ), 2, 7] 5 :=
  ⟨⟨by norm_num, by simp, by norm_num [List.pairwise_cons]⟩,
    prec_roundtrip_native_grid [(0 : ℚ), 2, 4] [1, 2, 7] 5 2 (by norm_num) (by simp)
      (by norm_num [List.pairwise_cons])⟩

/-- Claim C10: contrary to the claim, a placeholder kernel is silently treated
as success — for every kernel list the run ends unflagged and without error,
and the configuration `["AIRT_redcapp", "NOT_A_KERNEL"]` (one print-only
placeholder, one name with no implementation) completes as a success while
writing no output variable at all. -/
theorem process_placeholder_silent_success :
    (∀ ks : List String, (processKernels ks).errored = false ∧
      (processKernels ks).flaggedNoOps = []) ∧
    (processKernels ["AIRT_redcapp", "NOT_A_KERNEL"]).outputsWritten = [] ∧
    kernelOutputs "AIRT_redcapp" = some [] ∧
    kernelOutputs "NOT_A_KERNEL" = none :=
  ⟨fun _ => ⟨rfl, rfl⟩, by decide, by decide, by decide⟩

end Globsim
